import Mathlib

/-!
Shallow embedding of the residual vector-compression codec
(`colbert/indexing/codecs/residual.py`) and of the training batcher
(`colbert/training/lazy_batcher.py`).

Tensors are modelled as lists (matrices as lists of row lists),
floating-point values as exact rationals (reals for the final
normalization), device moves and dtype casts as identities, and Python
`assert` failures as the error channel of `Except`.
-/

set_option autoImplicit false

namespace Colbert

universe u

variable {α : Type u}

/-- Failure of a Python `assert` statement (an `AssertionError`). -/
inductive PyError where
  | assertionError : PyError
  deriving DecidableEq, Repr

/-- State held by a `ResidualCodec` after construction: the dimension `D`,
the bits-per-dimension `n`, the centroid matrix, and the learned bucket
cutoff and weight tables (residual.py lines 37-60). -/
structure ResidualCodec where
  dim : Nat
  nbits : Nat
  centroids : List (List ℚ)
  bucket_cutoffs : List ℚ
  bucket_weights : List ℚ
  deriving DecidableEq, Repr

/-- The record built by `ResidualCodec.__init__`. -/
def codecOf (dim nbits : Nat) (centroids : List (List ℚ))
    (bucket_cutoffs bucket_weights : List ℚ) : ResidualCodec :=
  { dim := dim, nbits := nbits, centroids := centroids,
    bucket_cutoffs := bucket_cutoffs, bucket_weights := bucket_weights }

/-- `ResidualCodec.__init__` (residual.py lines 37-60).  On the CPU path it
only moves tensors across devices and dtypes and precomputes
`arange_bits = torch.arange(0, nbits)`; it performs no dimension or
bit-width validation, so construction always succeeds.  The error channel
is present so that the specification's `ConfigurationError` contract can be
stated against it. -/
def mkCodec (dim nbits : Nat) (centroids : List (List ℚ))
    (bucket_cutoffs bucket_weights : List ℚ) : Except PyError ResidualCodec :=
  Except.ok (codecOf dim nbits centroids bucket_cutoffs bucket_weights)

/-- Concatenation of a list of rows (tensor flattening). -/
def flattenL : List (List α) → List α
  | [] => []
  | r :: rest => r ++ flattenL rest

/-- Fuel-driven worker for `chunkList`; the fuel is the length of the list,
so the fuel-exhausted arm is never taken. -/
def chunkGo : Nat → Nat → List α → List (List α)
  | 0, _, _ => []
  | _ + 1, _, [] => []
  | fuel + 1, n, x :: xs => (x :: xs.take (n - 1)) :: chunkGo fuel n (xs.drop (n - 1))

/-- `Tensor.split(n)`: cut a list into consecutive chunks of size `n`
(the final chunk may be shorter). -/
def chunkList (n : Nat) (l : List α) : List (List α) := chunkGo l.length n l

/-- Inner product of two vectors (one entry of `centroids @ batch.T`). -/
def dot (a b : List ℚ) : ℚ := (List.zipWith (fun x y => x * y) a b).sum

/-- Running state of the `max(dim=0)` reduction over one column: current
best value, its index, and the index of the next candidate; a later
element replaces the best only when strictly larger, so the first maximum
wins, matching `torch.max` which returns the first maximal index. -/
def argmaxGo : List ℚ → ℚ → Nat → Nat → ℚ × Nat
  | [], best, bi, _ => (best, bi)
  | x :: rest, best, bi, ci =>
      if best < x then argmaxGo rest x ci (ci + 1) else argmaxGo rest best bi (ci + 1)

/-- Index of the first maximal element (`.max(dim=0).indices` semantics,
residual.py line 182). -/
def argmaxIdx : List ℚ → Nat
  | [] => 0
  | x :: rest => (argmaxGo rest x 0 1).2

/-- `torch.bucketize(v, cutoffs)` with the default `right=False`
(residual.py line 157): the first index whose boundary is `≥ v` (the
lower-bound index), or `cutoffs.length` when every boundary is below `v`. -/
def bucketize (cutoffs : List ℚ) (v : ℚ) : Nat :=
  cutoffs.findIdx (fun c => decide (v ≤ c))

/-- Bit expansion of one quantization code, `(c.unsqueeze(-1) >> arange_bits) & 1`
(residual.py lines 158-160): the `nbits` bits of `c`, least-significant first. -/
def toBitsLSB (nbits c : Nat) : List Nat :=
  (List.range nbits).map (fun k => c >>> k &&& 1)

/-- Value of one byte from its 8 bits, most-significant bit first. -/
def byteOfBits (bits : List Nat) : Nat :=
  bits.foldl (fun acc b => 2 * acc + b) 0

/-- `cupy.packbits` with the default big-endian bit order (residual.py
line 165): consecutive groups of 8 bits become one byte, a final short
group being zero-padded on the right. -/
def packbits : List Nat → List Nat
  | b0 :: b1 :: b2 :: b3 :: b4 :: b5 :: b6 :: b7 :: rest =>
      byteOfBits [b0, b1, b2, b3, b4, b5, b6, b7] :: packbits rest
  | [] => []
  | bits => [byteOfBits (bits ++ List.replicate (8 - bits.length) 0)]

/-- The 8 bits of one byte, most-significant first (`np.unpackbits`,
residual.py line 246). -/
def unpackByte (b : Nat) : List Nat :=
  [b >>> 7 &&& 1, b >>> 6 &&& 1, b >>> 5 &&& 1, b >>> 4 &&& 1,
   b >>> 3 &&& 1, b >>> 2 &&& 1, b >>> 1 &&& 1, b >>> 0 &&& 1]

/-- `np.unpackbits` over a flat byte buffer. -/
def unpackbits (bytes : List Nat) : List Nat := flattenL (bytes.map unpackByte)

/-- `(bits << arange_bits).sum(-1)` (residual.py lines 252-253): recombine a
group of bits, least-significant first, into one quantization code. -/
def shiftSum (bits : List Nat) : Nat :=
  (List.zipWith (fun b k => b <<< k) bits (List.range bits.length)).sum

/-- Reshape a flat bit list into groups of `nbits` and recombine each group
(the `reshape(-1, dim, nbits)` plus shift-sum of residual.py lines 251-253). -/
def regroup (nbits : Nat) (l : List Nat) : List Nat :=
  (chunkList nbits l).map shiftSum

/-- Recursive presentation of the LSB-first bit expansion; proved equal to
`toBitsLSB` below and used only inside proofs. -/
def bitsAux : Nat → Nat → List Nat
  | 0, _ => []
  | n + 1, c => (c % 2) :: bitsAux n (c / 2)

/-- Value of an LSB-first bit list; proved equal to `shiftSum` below and
used only inside proofs. -/
def fromBitsLSB : List Nat → Nat
  | [] => 0
  | b :: rest => b + 2 * fromBitsLSB rest

/-- Row-major bit expansion of a whole code matrix: the flattened
`(N, dim, nbits)` tensor built by residual.py lines 158-165. -/
def matBits (nbits : Nat) (x : List (List Nat)) : List Nat :=
  flattenL (x.map (fun row => flattenL (row.map (toBitsLSB nbits))))

/-- Bit-packing performed at the end of `binarize` (residual.py lines
165-170): expand every code to `nbits` bits, flatten, `packbits`, and
reshape the byte buffer into rows of width `dim // 8 * nbits`. -/
def packCodes (dim nbits : Nat) (x : List (List Nat)) : List (List Nat) :=
  chunkList (dim / 8 * nbits) (packbits (matBits nbits x))

/-- Unpacking performed by `decompress_residuals` (residual.py lines
243-255) up to and including the code recombination: `unpackbits` on the
flattened buffer, regrouping of `nbits`-wide groups when `nbits > 1`, and
reshaping into rows of width `dim`. -/
def unpackCodes (dim nbits : Nat) (packed : List (List Nat)) : List (List Nat) :=
  chunkList dim
    (if 1 < nbits then regroup nbits (unpackbits (flattenL packed))
     else unpackbits (flattenL packed))

/-- `ResidualCodec.binarize` (residual.py lines 156-170): quantize every
residual entry with `bucketize`, assert `dim % 8 == 0` and
`dim % (nbits * 8) == 0`, and bit-pack the resulting codes. -/
def binarize (codec : ResidualCodec) (residuals : List (List ℚ)) :
    Except PyError (List (List Nat)) :=
  if codec.dim % 8 == 0 && codec.dim % (codec.nbits * 8) == 0 then
    Except.ok (packCodes codec.dim codec.nbits
      (residuals.map (fun r => r.map (bucketize codec.bucket_cutoffs))))
  else
    Except.error PyError.assertionError

/-- `ResidualCodec.compress_into_codes` (residual.py lines 172-185): the
batch is processed in chunks of `2^29 // C` vectors; every vector receives
the index of the centroid with maximal inner product, and per-chunk results
are concatenated in order. -/
def compress_into_codes (codec : ResidualCodec) (embs : List (List ℚ)) : List Nat :=
  flattenL ((chunkList (2 ^ 29 / codec.centroids.length) embs).map
    (fun batch => batch.map (fun v => argmaxIdx (codec.centroids.map (fun c => dot c v)))))

/-- `ResidualCodec.lookup_centroids` (residual.py lines 187-202): chunked
indexing `centroids[codes]`. -/
def lookup_centroids (codec : ResidualCodec) (codes : List Nat) : List (List ℚ) :=
  flattenL ((chunkList (2 ^ 20) codes).map
    (fun batch => batch.map (fun c => codec.centroids.getD c [])))

/-- Elementwise difference of two matrices (`batch - centroids_`,
residual.py line 146). -/
def subRows (a b : List (List ℚ)) : List (List ℚ) :=
  List.zipWith (fun r s => List.zipWith (fun x y => x - y) r s) a b

/-- Elementwise sum of two matrices (`centroids_.add_(residuals_)`,
residual.py line 229). -/
def addRows (a b : List (List ℚ)) : List (List ℚ) :=
  List.zipWith (fun r s => List.zipWith (fun x y => x + y) r s) a b

/-- Per-chunk body and concatenation of `ResidualCodec.compress`
(residual.py lines 138-154). -/
def compressLoop (codec : ResidualCodec) :
    List (List (List ℚ)) → Except PyError (List Nat × List (List Nat))
  | [] => Except.ok ([], [])
  | batch :: rest => do
      let codes_ := compress_into_codes codec batch
      let centroids_ := lookup_centroids codec codes_
      let residuals_ := subRows batch centroids_
      let packed ← binarize codec residuals_
      let tail ← compressLoop codec rest
      Except.ok (codes_ ++ tail.1, packed ++ tail.2)

/-- `ResidualCodec.compress` with an explicit chunk size (the source fixes
`bsize = 1 << 18` at residual.py line 141). -/
def compress (codec : ResidualCodec) (bsize : Nat) (embs : List (List ℚ)) :
    Except PyError (List Nat × List (List Nat)) :=
  compressLoop codec (chunkList bsize embs)

/-- `ResidualCodec.decompress_residuals` (residual.py lines 239-260, CPU
path): assert that every row has width `dim // 8 * nbits`, unpack and
regroup the quantization codes, and decode each code through
`bucket_weights`. -/
def decompress_residuals (codec : ResidualCodec) (binary_residuals : List (List Nat)) :
    Except PyError (List (List ℚ)) :=
  if binary_residuals.all (fun r => r.length == codec.dim / 8 * codec.nbits) then
    Except.ok ((unpackCodes codec.dim codec.nbits binary_residuals).map
      (fun row => row.map (fun c => codec.bucket_weights.getD c 0)))
  else
    Except.error PyError.assertionError

/-- Per-chunk body and concatenation of `ResidualCodec.decompress`
(residual.py lines 204-237, CPU path), up to and excluding the final
normalization. -/
def decompressLoop (codec : ResidualCodec) :
    List (List Nat × List (List Nat)) → Except PyError (List (List ℚ))
  | [] => Except.ok []
  | chunk :: rest => do
      let centroids_ := lookup_centroids codec chunk.1
      let residuals_ ← decompress_residuals codec chunk.2
      let tail ← decompressLoop codec rest
      Except.ok (addRows centroids_ residuals_ ++ tail)

/-- Raw reconstruction computed by `ResidualCodec.decompress`: centroid
plus decoded residual per row, concatenated over chunks of `1 << 15` rows
(residual.py lines 209-229). -/
def decompressRaw (codec : ResidualCodec) (codes : List Nat)
    (residuals : List (List Nat)) : Except PyError (List (List ℚ)) :=
  decompressLoop codec ((chunkList (2 ^ 15) codes).zip (chunkList (2 ^ 15) residuals))

/-- Squared Euclidean norm of a rational row. -/
def normSqQ (r : List ℚ) : ℚ := (r.map (fun x => x * x)).sum

/-- Squared Euclidean norm of a real row. -/
def normSqR (r : List ℝ) : ℝ := (r.map (fun x => x * x)).sum

/-- `torch.nn.functional.normalize(x, p=2, dim=-1)` over exact reals
(residual.py line 234): divide every entry of a row by the Euclidean norm
of the row.  Division by zero yields zero in Lean, matching the
`eps`-clamped zero output row that the source produces on a zero row. -/
noncomputable def l2normalize (r : List ℚ) : List ℝ :=
  r.map (fun x : ℚ => (x : ℝ) / Real.sqrt ((normSqQ r : ℝ)))

/-- `ResidualCodec.decompress` (residual.py lines 204-237, CPU path):
raw reconstruction followed by row-wise L2 normalization. -/
noncomputable def decompress (codec : ResidualCodec) (codes : List Nat)
    (residuals : List (List Nat)) : Except PyError (List (List ℝ)) :=
  Except.map (fun rows => rows.map l2normalize) (decompressRaw codec codes residuals)

/-- `LazyBatcher.__next__` (lazy_batcher.py lines 44-88): read up to `bsize`
triples starting at `pos`, advance the position to `endpos` first, and
signal `StopIteration` (`none`) when fewer than `bsize` triples remain. -/
def lazyNextBatch (bsize : Nat) (triples : List α) (pos : Nat) :
    Option (List α) × Nat :=
  let endpos := min (pos + bsize) triples.length
  if triples.length < pos + bsize then (none, endpos)
  else (some ((triples.drop pos).take (endpos - pos)), endpos)

/-- Position of the batcher after `k` calls to `__next__`, starting from 0. -/
def lazyPos (bsize : Nat) (triples : List α) : Nat → Nat
  | 0 => 0
  | k + 1 => (lazyNextBatch bsize triples (lazyPos bsize triples k)).2

/-- The concrete codec of the specification's scenario: `D = 8`, `n = 2`,
centroids `c0`, `c1`, cutoffs `[-1/2, 0, 1/2]`, weights
`[-3/4, -1/4, 1/4, 3/4]`. -/
def codecC5 : ResidualCodec :=
  codecOf 8 2
    [[1, 0, 0, 0, 0, 0, 0, 0], [0, 1, 0, 0, 0, 0, 0, 0]]
    [-(1 / 2), 0, 1 / 2]
    [-(3 / 4), -(1 / 4), 1 / 4, 3 / 4]

/-- A valid 1-bit codec (`D = 8`, `n = 1`) with a single all-ones centroid,
cutoffs `[0]` and weights `[-1, 1]`. -/
def codecZ : ResidualCodec :=
  codecOf 8 1 [[1, 1, 1, 1, 1, 1, 1, 1]] [0] [-1, 1]

section Helpers

variable {β : Type u}

theorem flattenL_cons (r : List α) (rest : List (List α)) :
    flattenL (r :: rest) = r ++ flattenL rest := rfl

theorem flattenL_append : ∀ a b : List (List α), flattenL (a ++ b) = flattenL a ++ flattenL b
  | [], _ => rfl
  | r :: rest, b => by
      simp only [List.cons_append, flattenL_cons, flattenL_append rest b, List.append_assoc]

theorem mem_flattenL {a : α} : ∀ {xs : List (List α)}, a ∈ flattenL xs ↔ ∃ l ∈ xs, a ∈ l := by
  intro xs
  induction xs with
  | nil => simp [flattenL]
  | cons r rest ih => simp [flattenL_cons, List.mem_append, ih]

theorem map_flattenL (f : α → β) : ∀ xs : List (List α),
    (flattenL xs).map f = flattenL (xs.map (List.map f))
  | [] => rfl
  | r :: rest => by
      simp only [flattenL_cons, List.map_append, List.map_cons, map_flattenL f rest]

theorem chunkGo_fuel (fuel : Nat) : ∀ (n : Nat) (l : List α),
    l.length ≤ fuel → chunkGo fuel n l = chunkGo l.length n l := by
  induction fuel using Nat.strong_induction_on with
  | _ fuel ih =>
    intro n l hl
    cases l with
    | nil => cases fuel <;> rfl
    | cons x xs =>
      cases fuel with
      | zero => simp at hl
      | succ m =>
        have hm : xs.length ≤ m := by simpa using hl
        have hd : (xs.drop (n - 1)).length ≤ xs.length := by
          simp [List.length_drop]
        simp only [chunkGo, List.length_cons]
        rw [ih m (Nat.lt_succ_self m) n _ (le_trans hd hm),
          ih xs.length (Nat.lt_succ_of_le hm) n _ hd]

theorem chunkList_cons (n : Nat) (x : α) (xs : List α) :
    chunkList n (x :: xs) = (x :: xs.take (n - 1)) :: chunkList n (xs.drop (n - 1)) := by
  show chunkGo (xs.length + 1) n (x :: xs) = _
  simp only [chunkGo]
  rw [chunkGo_fuel xs.length n _ (by simp [List.length_drop])]
  rfl

theorem flattenL_chunkGo (n : Nat) : ∀ (fuel : Nat) (l : List α),
    l.length ≤ fuel → flattenL (chunkGo fuel n l) = l := by
  intro fuel
  induction fuel with
  | zero =>
    intro l hl
    rw [List.length_eq_zero.mp (Nat.le_zero.mp hl)]
    rfl
  | succ m ih =>
    intro l hl
    cases l with
    | nil => rfl
    | cons x xs =>
      have hm : xs.length ≤ m := by simpa using hl
      have hd : (xs.drop (n - 1)).length ≤ m := le_trans (by simp [List.length_drop]) hm
      simp only [chunkGo, flattenL_cons, ih _ hd]
      simp [List.take_append_drop]

theorem flattenL_chunkList (n : Nat) (l : List α) : flattenL (chunkList n l) = l :=
  flattenL_chunkGo n l.length l le_rfl

theorem chunkList_flattenL (n : Nat) (hn : 0 < n) : ∀ rows : List (List α),
    (∀ r ∈ rows, r.length = n) → chunkList n (flattenL rows) = rows := by
  intro rows
  induction rows with
  | nil => intro _; rfl
  | cons r rest ih =>
    intro h
    have hr : r.length = n := h r (by simp)
    cases r with
    | nil => simp at hr; omega
    | cons y r' =>
      have hlen : r'.length = n - 1 := by simp at hr; omega
      rw [flattenL_cons, List.cons_append, chunkList_cons,
        List.take_left' hlen, List.drop_left' hlen,
        ih (fun s hs => h s (by simp [hs]))]

end Helpers

section LazyBatcherProofs

theorem lazyNextBatch_pos (bsize : Nat) (triples : List α) (pos : Nat) :
    (lazyNextBatch bsize triples pos).2 = min (pos + bsize) triples.length := by
  unfold lazyNextBatch
  dsimp only
  split <;> rfl

theorem lazyPos_eq (bsize : Nat) (triples : List α) :
    ∀ k, lazyPos bsize triples k = min (k * bsize) triples.length := by
  intro k
  induction k with
  | zero => simp [lazyPos]
  | succ m ih =>
    show (lazyNextBatch bsize triples (lazyPos bsize triples m)).2 = _
    rw [lazyNextBatch_pos, ih, Nat.succ_mul]
    rcases le_or_lt (m * bsize) triples.length with h | h
    · rw [min_eq_left h]
    · rw [min_eq_right (le_of_lt h), min_eq_right (Nat.le_add_right _ _),
        min_eq_right (by omega)]

/-- C10: `LazyBatcher.__next__` either returns a batch of exactly `bsize`
triples or signals `StopIteration`; starting from position 0, call `k`
succeeds exactly when `k < length / bsize` (so iteration yields exactly
`length / bsize` batches and the trailing `length mod bsize` triples are
never yielded), and every call first advances the position to
`min (pos + bsize) length`, including the failing one. -/
theorem c10_lazy_batcher_next (bsize : Nat) (triples : List α) (hb : 1 ≤ bsize) :
    (∀ k, k < triples.length / bsize →
      (lazyNextBatch bsize triples (lazyPos bsize triples k)).1 =
        some ((triples.drop (k * bsize)).take bsize) ∧
      ((triples.drop (k * bsize)).take bsize).length = bsize) ∧
    (∀ k, triples.length / bsize ≤ k →
      (lazyNextBatch bsize triples (lazyPos bsize triples k)).1 = none) ∧
    (∀ pos, (lazyNextBatch bsize triples pos).2 = min (pos + bsize) triples.length) := by
  refine ⟨?_, ?_, fun pos => lazyNextBatch_pos bsize triples pos⟩
  · intro k hk
    have hkb : (k + 1) * bsize ≤ triples.length :=
      (Nat.le_div_iff_mul_le hb).mp (Nat.succ_le_of_lt hk)
    have hmul : (k + 1) * bsize = k * bsize + bsize := Nat.succ_mul k bsize
    have hpos : lazyPos bsize triples k = k * bsize := by
      rw [lazyPos_eq]
      exact min_eq_left (by omega)
    rw [hpos]
    unfold lazyNextBatch
    dsimp only
    rw [if_neg (by omega)]
    constructor
    · rw [min_eq_left (by omega)]
      have harith : k * bsize + bsize - k * bsize = bsize := by omega
      rw [harith]
    · rw [List.length_take, List.length_drop]
      omega
  · intro k hk
    have hlt : triples.length < (k + 1) * bsize :=
      (Nat.div_lt_iff_lt_mul hb).mp (by omega)
    have hmul : (k + 1) * bsize = k * bsize + bsize := Nat.succ_mul k bsize
    rw [lazyPos_eq]
    unfold lazyNextBatch
    dsimp only
    rw [if_pos ?_]
    rcases le_or_lt (k * bsize) triples.length with h | h
    · rw [min_eq_left h]; omega
    · rw [min_eq_right (le_of_lt h)]; omega

/-- Witness for C10 at `bsize = 2` over five triples: the second call
returns the batch `[2, 3]` and the third call signals `StopIteration`. -/
theorem c10_witness :
    (lazyNextBatch 2 [0, 1, 2, 3, 4] (lazyPos 2 [0, 1, 2, 3, 4] 1)).1 = some [2, 3] ∧
    (lazyNextBatch 2 [0, 1, 2, 3, 4] (lazyPos 2 [0, 1, 2, 3, 4] 2)).1 = none := by
  constructor
  · have h := ((c10_lazy_batcher_next 2 [0, 1, 2, 3, 4] (by decide)).1 1 (by decide)).1
    simpa using h
  · exact (c10_lazy_batcher_next 2 [0, 1, 2, 3, 4] (by decide)).2.1 2 (by decide)

end LazyBatcherProofs

section BucketizeProofs

/-- Counterexample to C2 as stated: with the single cutoff `0` and scalar
`0`, the code assigns bucket 0, while the count of cutoffs that are `≤ 0`
is 1 — a value equal to a cutoff goes to the lower bucket, not the
higher one. -/
theorem c2_counterexample :
    bucketize [(0 : ℚ)] 0 = 0 ∧
    List.countP (fun c => decide (c ≤ (0 : ℚ))) [(0 : ℚ)] = 1 ∧
    bucketize [(0 : ℚ)] 0 ≠
      List.countP (fun c => decide (c ≤ (0 : ℚ))) [(0 : ℚ)] := by
  refine ⟨by decide, by decide, by decide⟩

/-- C2 amended: for a strictly increasing cutoff table, the quantization
step of `binarize` (`torch.bucketize` with the default `right=False`)
assigns a scalar the bucket index equal to the count of cutoffs that are
strictly less than it; a scalar equal to a cutoff goes to the lower of the
two adjacent buckets. -/
theorem c2_bucketize_strict_count (cutoffs : List ℚ) (v : ℚ)
    (hs : List.Sorted (· < ·) cutoffs) :
    bucketize cutoffs v = cutoffs.countP (fun c => decide (c < v)) := by
  induction cutoffs with
  | nil => rfl
  | cons c cs ih =>
    rw [List.sorted_cons] at hs
    rw [bucketize, List.findIdx_cons]
    rcases le_or_lt v c with h | h
    · rw [decide_eq_true h]
      show 0 = List.countP (fun c => decide (c < v)) (c :: cs)
      symm
      rw [List.countP_eq_zero]
      intro a ha
      rcases List.mem_cons.mp ha with rfl | hmem
      · simpa using not_lt.mpr h
      · have : c < a := hs.1 a hmem
        simp only [decide_eq_true_eq]
        intro hav
        exact absurd (lt_trans hav (lt_of_le_of_lt h this)) (lt_irrefl a)
    · rw [decide_eq_false (not_le.mpr h)]
      show List.findIdx (fun c => decide (v ≤ c)) cs + 1 = _
      rw [List.countP_cons_of_pos _ _ (by simpa using h)]
      rw [← bucketize, ih hs.2]

/-- Witness for C2 amended at cutoffs `[0, 1]` and scalar `1` (a tie with
the second cutoff): the assigned bucket equals the count of cutoffs
strictly below `1`, namely 1 (the lower of the two adjacent buckets). -/
theorem c2_witness :
    List.Sorted (· < ·) [(0 : ℚ), 1] ∧
    bucketize [(0 : ℚ), 1] 1 =
      List.countP (fun c => decide (c < (1 : ℚ))) [(0 : ℚ), 1] :=
  ⟨by decide, c2_bucketize_strict_count [(0 : ℚ), 1] 1 (by decide)⟩

end BucketizeProofs

section ConstructionProofs

/-- Counterexample to C4 as stated: `D = 6`, `n = 2` has `D * n = 12`,
which is not a multiple of 8 (and `D` is not a multiple of `8 / n = 4`),
yet constructing the codec succeeds — `__init__` raises no
`ConfigurationError`. -/
theorem c4_counterexample :
    mkCodec 6 2 [[1, 0, 0, 0, 0, 0]] [0] [-1, 1] =
      Except.ok (codecOf 6 2 [[1, 0, 0, 0, 0, 0]] [0] [-1, 1]) := rfl

/-- C4 amended: construction never validates the dimension/bit-width
invariant and always succeeds; the invariant is instead enforced by the
assertions at the start of `binarize` — during `compress`, not at
construction — which raise `AssertionError` whenever `dim % 8 ≠ 0` or
`dim % (nbits * 8) ≠ 0` (note that the asserted condition is that `dim` is
divisible by `nbits * 8`, not that `dim * nbits` is divisible by 8). -/
theorem c4_construction_unchecked (dim nbits : Nat) (centroids : List (List ℚ))
    (cutoffs weights : List ℚ) (residuals : List (List ℚ))
    (h : ¬(dim % 8 = 0 ∧ dim % (nbits * 8) = 0)) :
    mkCodec dim nbits centroids cutoffs weights =
      Except.ok (codecOf dim nbits centroids cutoffs weights) ∧
    binarize (codecOf dim nbits centroids cutoffs weights) residuals =
      Except.error PyError.assertionError := by
  refine ⟨rfl, ?_⟩
  unfold binarize
  rw [if_neg (by simpa [codecOf] using h)]

/-- Witness for C4 amended at `D = 6`, `n = 2`: construction succeeds and
`binarize` fails with `AssertionError`. -/
theorem c4_witness :
    binarize (codecOf 6 2 [] [] []) [] = Except.error PyError.assertionError :=
  (c4_construction_unchecked 6 2 [] [] [] [] (by decide)).2

end ConstructionProofs

section ShapeProofs

/-- C7: decoding a packed-residual matrix whose (uniform) row width is `w`
fails with the shape assertion exactly when `w` differs from
`dim // 8 * nbits`; when the width is correct the check passes. -/
theorem c7_decompress_residuals_shape (codec : ResidualCodec) (br : List (List Nat))
    (w : Nat) (hw : ∀ r ∈ br, r.length = w) (hne : br ≠ []) :
    (∃ e, decompress_residuals codec br = Except.error e) ↔
      w ≠ codec.dim / 8 * codec.nbits := by
  unfold decompress_residuals
  rcases eq_or_ne w (codec.dim / 8 * codec.nbits) with hweq | hwne
  · rw [if_pos ?_]
    · simp [hweq]
    · rw [List.all_eq_true]
      intro r hr
      simp [hw r hr, hweq]
  · rw [if_neg ?_]
    · constructor
      · intro _; exact hwne
      · intro _; exact ⟨PyError.assertionError, rfl⟩
    · rw [List.all_eq_true]
      intro hall
      cases br with
      | nil => exact hne rfl
      | cons r rest =>
        have h1 := hall r (by simp)
        rw [beq_iff_eq] at h1
        exact hwne (by rw [← hw r (by simp), h1])

/-- Witness for C7: for the one-bit codec `codecZ` (`dim // 8 * nbits = 1`),
a packed row of width 2 is rejected with the shape assertion. -/
theorem c7_witness :
    decompress_residuals codecZ [[0, 0]] = Except.error PyError.assertionError := by
  obtain ⟨e, he⟩ :=
    (c7_decompress_residuals_shape codecZ [[0, 0]] 2 (by decide) (by decide)).mpr
      (by decide)
  cases e
  exact he

end ShapeProofs

section BitLemmas

theorem toBitsLSB_eq_bitsAux : ∀ (n c : Nat), toBitsLSB n c = bitsAux n c := by
  intro n
  induction n with
  | zero => intro c; rfl
  | succ m ih =>
    intro c
    unfold toBitsLSB bitsAux
    rw [List.range_succ_eq_map, List.map_cons, List.map_map]
    congr 1
    · rw [Nat.shiftRight_zero, Nat.and_one_is_mod]
    · have hshift : ((fun k => c >>> k &&& 1) ∘ Nat.succ) = fun k => (c / 2) >>> k &&& 1 := by
        funext k
        show c >>> (k + 1) &&& 1 = (c / 2) >>> k &&& 1
        rw [Nat.add_comm k 1, Nat.shiftRight_add, Nat.shiftRight_one]
      rw [hshift]
      exact ih (c / 2)

theorem fromBitsLSB_bitsAux : ∀ (n c : Nat), fromBitsLSB (bitsAux n c) = c % 2 ^ n := by
  intro n
  induction n with
  | zero => intro c; simp [bitsAux, fromBitsLSB, Nat.mod_one]
  | succ m ih =>
    intro c
    show (c % 2) + 2 * fromBitsLSB (bitsAux m (c / 2)) = c % 2 ^ (m + 1)
    rw [ih (c / 2), ← Nat.mod_mul_right_div_self, pow_succ, Nat.mul_comm (2 ^ m) 2]
    have h2 : c % (2 * 2 ^ m) % 2 = c % 2 :=
      Nat.mod_mod_of_dvd c (Dvd.intro (2 ^ m) rfl)
    omega

theorem toBitsLSB_length (n c : Nat) : (toBitsLSB n c).length = n := by
  simp [toBitsLSB]

theorem toBitsLSB_le_one (n c : Nat) : ∀ b ∈ toBitsLSB n c, b ≤ 1 := by
  intro b hb
  simp only [toBitsLSB, List.mem_map] at hb
  obtain ⟨k, -, rfl⟩ := hb
  exact Nat.and_le_right

theorem zip_shift_sum : ∀ (bits : List Nat) (s : Nat),
    (List.zipWith (fun b k => b <<< k) bits
      ((List.range bits.length).map (fun k => k + s))).sum = 2 ^ s * fromBitsLSB bits := by
  intro bits
  induction bits with
  | nil => intro s; simp [fromBitsLSB]
  | cons b rest ih =>
    intro s
    rw [List.length_cons, List.range_succ_eq_map, List.map_cons, List.map_map]
    have hsh : ((fun k => k + s) ∘ Nat.succ) = fun k => k + (s + 1) := by
      funext k
      simp [Function.comp]
      omega
    rw [hsh, List.zipWith_cons_cons, List.sum_cons, ih (s + 1)]
    show b <<< (0 + s) + 2 ^ (s + 1) * fromBitsLSB rest =
      2 ^ s * (b + 2 * fromBitsLSB rest)
    rw [Nat.zero_add, Nat.shiftLeft_eq, pow_succ]
    ring

theorem shiftSum_eq_fromBitsLSB (bits : List Nat) : shiftSum bits = fromBitsLSB bits := by
  have h := zip_shift_sum bits 0
  simpa [shiftSum] using h

theorem shiftSum_toBitsLSB (n c : Nat) (hc : c < 2 ^ n) :
    shiftSum (toBitsLSB n c) = c := by
  rw [shiftSum_eq_fromBitsLSB, toBitsLSB_eq_bitsAux, fromBitsLSB_bitsAux,
    Nat.mod_eq_of_lt hc]

theorem unpackbits_cons (x : Nat) (l : List Nat) :
    unpackbits (x :: l) = unpackByte x ++ unpackbits l := rfl

theorem unpackByte_byteOfBits (b0 b1 b2 b3 b4 b5 b6 b7 : Nat)
    (h0 : b0 ≤ 1) (h1 : b1 ≤ 1) (h2 : b2 ≤ 1) (h3 : b3 ≤ 1)
    (h4 : b4 ≤ 1) (h5 : b5 ≤ 1) (h6 : b6 ≤ 1) (h7 : b7 ≤ 1) :
    unpackByte (byteOfBits [b0, b1, b2, b3, b4, b5, b6, b7]) =
      [b0, b1, b2, b3, b4, b5, b6, b7] := by
  simp only [unpackByte, byteOfBits, List.foldl, Nat.shiftRight_eq_div_pow,
    Nat.and_one_is_mod, List.cons.injEq, and_true]
  norm_num
  omega

theorem exists_cons8 (bits : List Nat) (h8 : bits.length % 8 = 0) (hne : bits ≠ []) :
    ∃ b0 b1 b2 b3 b4 b5 b6 b7 rest,
      bits = b0 :: b1 :: b2 :: b3 :: b4 :: b5 :: b6 :: b7 :: rest := by
  rcases bits with _ | ⟨b0, _ | ⟨b1, _ | ⟨b2, _ | ⟨b3, _ | ⟨b4, _ | ⟨b5, _ | ⟨b6, _ | ⟨b7, rest⟩⟩⟩⟩⟩⟩⟩⟩
  · exact absurd rfl hne
  all_goals first
    | exact ⟨_, _, _, _, _, _, _, _, _, rfl⟩
    | simp at h8

theorem unpackbits_packbits_aux (n : Nat) : ∀ bits : List Nat,
    bits.length = 8 * n → (∀ b ∈ bits, b ≤ 1) →
    unpackbits (packbits bits) = bits := by
  induction n with
  | zero =>
    intro bits hlen _
    have hnil : bits = [] := List.length_eq_zero.mp (by omega)
    subst hnil
    rfl
  | succ m ih =>
    intro bits hlen hb
    obtain ⟨b0, b1, b2, b3, b4, b5, b6, b7, rest, rfl⟩ :=
      exists_cons8 bits (by omega) (by intro hnil; subst hnil; simp at hlen)
    have hrest : rest.length = 8 * m := by simp at hlen; omega
    have hpack : packbits (b0 :: b1 :: b2 :: b3 :: b4 :: b5 :: b6 :: b7 :: rest) =
        byteOfBits [b0, b1, b2, b3, b4, b5, b6, b7] :: packbits rest := rfl
    rw [hpack, unpackbits_cons,
      unpackByte_byteOfBits b0 b1 b2 b3 b4 b5 b6 b7
        (hb b0 (by simp)) (hb b1 (by simp)) (hb b2 (by simp)) (hb b3 (by simp))
        (hb b4 (by simp)) (hb b5 (by simp)) (hb b6 (by simp)) (hb b7 (by simp)),
      ih rest hrest (fun b hbm => hb b (by simp [hbm]))]
    rfl

theorem unpackbits_packbits (bits : List Nat) (hb : ∀ b ∈ bits, b ≤ 1)
    (h8 : bits.length % 8 = 0) : unpackbits (packbits bits) = bits :=
  unpackbits_packbits_aux (bits.length / 8) bits (by omega) hb

theorem packbits_append_aux (n : Nat) : ∀ a b : List Nat, a.length = 8 * n →
    packbits (a ++ b) = packbits a ++ packbits b := by
  induction n with
  | zero =>
    intro a b hlen
    have hnil : a = [] := List.length_eq_zero.mp (by omega)
    subst hnil
    rfl
  | succ m ih =>
    intro a b hlen
    obtain ⟨b0, b1, b2, b3, b4, b5, b6, b7, rest, rfl⟩ :=
      exists_cons8 a (by omega) (by intro hnil; subst hnil; simp at hlen)
    have hrest : rest.length = 8 * m := by simp at hlen; omega
    show byteOfBits [b0, b1, b2, b3, b4, b5, b6, b7] :: packbits (rest ++ b) = _
    rw [ih rest b hrest]
    rfl

theorem packbits_length_aux (n : Nat) : ∀ l : List Nat, l.length = 8 * n →
    (packbits l).length = n := by
  induction n with
  | zero =>
    intro l hlen
    have hnil : l = [] := List.length_eq_zero.mp (by omega)
    subst hnil
    rfl
  | succ m ih =>
    intro l hlen
    obtain ⟨b0, b1, b2, b3, b4, b5, b6, b7, rest, rfl⟩ :=
      exists_cons8 l (by omega) (by intro hnil; subst hnil; simp at hlen)
    have hrest : rest.length = 8 * m := by simp at hlen; omega
    show (byteOfBits [b0, b1, b2, b3, b4, b5, b6, b7] :: packbits rest).length = m + 1
    rw [List.length_cons, ih rest hrest]

theorem packbits_flattenL (ys : List (List Nat)) (h : ∀ r ∈ ys, r.length % 8 = 0) :
    packbits (flattenL ys) = flattenL (ys.map packbits) := by
  induction ys with
  | nil => rfl
  | cons r rest ih =>
    rw [flattenL_cons, packbits_append_aux (r.length / 8) r (flattenL rest)
        (by have := h r (by simp); omega),
      ih (fun s hs => h s (by simp [hs])), List.map_cons, flattenL_cons]

theorem flattenL_map_length_const {β : Type u} (f : β → List Nat) (n : Nat) :
    ∀ l : List β, (∀ a ∈ l, (f a).length = n) →
      (flattenL (l.map f)).length = l.length * n := by
  intro l
  induction l with
  | nil => intro _; simp [flattenL]
  | cons a rest ih =>
    intro h
    rw [List.map_cons, flattenL_cons, List.length_append, h a (by simp),
      ih (fun x hx => h x (by simp [hx])), List.length_cons, Nat.succ_mul]
    omega

theorem matBits_cons (nbits : Nat) (r : List Nat) (rest : List (List Nat)) :
    matBits nbits (r :: rest) =
      flattenL (r.map (toBitsLSB nbits)) ++ matBits nbits rest := rfl

theorem matBits_eq (nbits : Nat) : ∀ x : List (List Nat),
    matBits nbits x = flattenL ((flattenL x).map (toBitsLSB nbits)) := by
  intro x
  induction x with
  | nil => rfl
  | cons r rest ih =>
    rw [matBits_cons, flattenL_cons, List.map_append, flattenL_append, ih]

theorem matBits_le_one (nbits : Nat) (x : List (List Nat)) :
    ∀ b ∈ matBits nbits x, b ≤ 1 := by
  intro b hb
  rw [matBits_eq, mem_flattenL] at hb
  obtain ⟨l, hl, hbl⟩ := hb
  rw [List.mem_map] at hl
  obtain ⟨c, -, rfl⟩ := hl
  exact toBitsLSB_le_one nbits c b hbl

theorem matBits_length (nbits dim : Nat) (x : List (List Nat))
    (hx : ∀ r ∈ x, r.length = dim) :
    (matBits nbits x).length = x.length * (dim * nbits) := by
  unfold matBits
  refine flattenL_map_length_const _ _ x ?_
  intro r hr
  rw [flattenL_map_length_const (toBitsLSB nbits) nbits r
    (fun c _ => toBitsLSB_length nbits c), hx r hr]

theorem regroup_flattenL_toBits (nbits : Nat) (hn : 0 < nbits) (cs : List Nat)
    (hc : ∀ c ∈ cs, c < 2 ^ nbits) :
    regroup nbits (flattenL (cs.map (toBitsLSB nbits))) = cs := by
  unfold regroup
  rw [chunkList_flattenL nbits hn (cs.map (toBitsLSB nbits)) ?_, List.map_map]
  · have h : ∀ c ∈ cs, (shiftSum ∘ toBitsLSB nbits) c = c := fun c hcm =>
      shiftSum_toBitsLSB nbits c (hc c hcm)
    rw [List.map_congr_left h, List.map_id']
  · intro r hr
    rw [List.mem_map] at hr
    obtain ⟨c, -, rfl⟩ := hr
    exact toBitsLSB_length nbits c

theorem flattenL_map_toBits_one (r : List Nat) (hr : ∀ c ∈ r, c < 2) :
    flattenL (r.map (toBitsLSB 1)) = r := by
  induction r with
  | nil => rfl
  | cons c rest ih =>
    rw [List.map_cons, flattenL_cons, ih (fun a ha => hr a (by simp [ha]))]
    have hc : toBitsLSB 1 c = [c] := by
      rw [toBitsLSB_eq_bitsAux]
      show [c % 2] = [c]
      rw [Nat.mod_eq_of_lt (hr c (by simp))]
    rw [hc]
    rfl

end BitLemmas

section PackingProofs

theorem packRow_length (t nbits : Nat) (r : List Nat) (hr : r.length = 8 * t) :
    (packbits (flattenL (r.map (toBitsLSB nbits)))).length = t * nbits := by
  refine packbits_length_aux (t * nbits) _ ?_
  rw [flattenL_map_length_const (toBitsLSB nbits) nbits r
    (fun c _ => toBitsLSB_length nbits c), hr]
  ring

theorem packCodes_eq_map (dim nbits : Nat) (hd8 : dim % 8 = 0) (hd : 0 < dim)
    (hn : 0 < nbits) (y : List (List Nat)) (hy : ∀ r ∈ y, r.length = dim) :
    packCodes dim nbits y =
      y.map (fun r => packbits (flattenL (r.map (toBitsLSB nbits)))) := by
  obtain ⟨t, rfl⟩ : ∃ t, dim = 8 * t := ⟨dim / 8, by omega⟩
  have ht : 0 < t := by omega
  unfold packCodes matBits
  rw [packbits_flattenL _ ?_]
  · rw [List.map_map]
    have hw : 8 * t / 8 * nbits = t * nbits := by
      rw [Nat.mul_div_cancel_left t (by norm_num : 0 < 8)]
    rw [hw]
    have hcomp : packbits ∘ (fun row : List Nat => flattenL (row.map (toBitsLSB nbits))) =
        fun r : List Nat => packbits (flattenL (r.map (toBitsLSB nbits))) := rfl
    rw [hcomp]
    refine chunkList_flattenL (t * nbits) (Nat.mul_pos ht hn) _ ?_
    intro p hp
    rw [List.mem_map] at hp
    obtain ⟨r, hr, rfl⟩ := hp
    exact packRow_length t nbits r (hy r hr)
  · intro s hs
    rw [List.mem_map] at hs
    obtain ⟨r, hr, rfl⟩ := hs
    rw [flattenL_map_length_const (toBitsLSB nbits) nbits r
      (fun c _ => toBitsLSB_length nbits c), hy r hr]
    have h8 : 8 * t * nbits = 8 * (t * nbits) := by ring
    rw [h8]
    omega

theorem packCodes_width (dim nbits : Nat) (hd8 : dim % 8 = 0) (hd : 0 < dim)
    (hn : 0 < nbits) (y : List (List Nat)) (hy : ∀ r ∈ y, r.length = dim) :
    ∀ p ∈ packCodes dim nbits y, p.length = dim / 8 * nbits := by
  rw [packCodes_eq_map dim nbits hd8 hd hn y hy]
  intro p hp
  rw [List.mem_map] at hp
  obtain ⟨r, hr, rfl⟩ := hp
  obtain ⟨t, rfl⟩ : ∃ t, dim = 8 * t := ⟨dim / 8, by omega⟩
  rw [Nat.mul_div_cancel_left t (by norm_num : 0 < 8)]
  exact packRow_length t nbits r (hy r hr)

/-- C1: unpacking inverts packing.  For every code matrix `x` with rows of
width `dim` (a positive multiple of 8) and entries in `[0, 2^nbits)`, the
unpacking performed by `decompress_residuals` (unpackbits followed by
recombination via shifts by `arange_bits`) applied to the bit-packing
performed at the end of `binarize` (bit-expansion by `arange_bits`
followed by MSB-first packbits into `dim / 8 * nbits` bytes per row)
recovers `x` exactly, for every supported `nbits` in `{1, 2, 4, 8}`. -/
theorem c1_unpack_pack_roundtrip (dim nbits : Nat) (x : List (List Nat))
    (hn : nbits = 1 ∨ nbits = 2 ∨ nbits = 4 ∨ nbits = 8)
    (hdim8 : dim % 8 = 0) (hdim : 0 < dim)
    (hrow : ∀ r ∈ x, r.length = dim)
    (hval : ∀ r ∈ x, ∀ c ∈ r, c < 2 ^ nbits) :
    unpackCodes dim nbits (packCodes dim nbits x) = x := by
  have hnpos : 0 < nbits := by rcases hn with rfl | rfl | rfl | rfl <;> norm_num
  unfold unpackCodes packCodes
  rw [flattenL_chunkList]
  have hb1 : ∀ b ∈ matBits nbits x, b ≤ 1 := matBits_le_one nbits x
  have hlen : (matBits nbits x).length % 8 = 0 := by
    rw [matBits_length nbits dim x hrow]
    obtain ⟨t, rfl⟩ : ∃ t, dim = 8 * t := ⟨dim / 8, by omega⟩
    have h8 : x.length * (8 * t * nbits) = 8 * (x.length * (t * nbits)) := by ring
    rw [h8]
    omega
  rw [unpackbits_packbits (matBits nbits x) hb1 hlen]
  by_cases h1 : 1 < nbits
  · rw [if_pos h1, matBits_eq, regroup_flattenL_toBits nbits hnpos (flattenL x) ?_]
    · exact chunkList_flattenL dim hdim x hrow
    · intro c hcm
      rw [mem_flattenL] at hcm
      obtain ⟨r, hr, hcr⟩ := hcm
      exact hval r hr c hcr
  · have hn1 : nbits = 1 := by omega
    subst hn1
    rw [if_neg h1]
    have hone : matBits 1 x = flattenL x := by
      unfold matBits
      have h : ∀ r ∈ x, flattenL (r.map (toBitsLSB 1)) = r := fun r hr =>
        flattenL_map_toBits_one r (fun c hc => by simpa using hval r hr c hc)
      rw [List.map_congr_left h, List.map_id']
    rw [hone]
    exact chunkList_flattenL dim hdim x hrow

/-- Witness for C1 at `dim = 8`, `nbits = 2` on the concrete code matrix
`[[1, 2, 1, 1, 1, 1, 1, 1]]`. -/
theorem c1_witness :
    unpackCodes 8 2 (packCodes 8 2 [[1, 2, 1, 1, 1, 1, 1, 1]]) =
      [[1, 2, 1, 1, 1, 1, 1, 1]] :=
  c1_unpack_pack_roundtrip 8 2 [[1, 2, 1, 1, 1, 1, 1, 1]]
    (Or.inr (Or.inl rfl)) (by decide) (by decide) (by decide) (by decide)

theorem binarize_ok (codec : ResidualCodec) (residuals : List (List ℚ))
    (hd8 : codec.dim % 8 = 0) (hdn : codec.dim % (codec.nbits * 8) = 0) :
    binarize codec residuals = Except.ok (packCodes codec.dim codec.nbits
      (residuals.map (fun r => r.map (bucketize codec.bucket_cutoffs)))) := by
  unfold binarize
  rw [if_pos (by simp [hd8, hdn])]

theorem binarize_ok_inv (codec : ResidualCodec) (residuals : List (List ℚ))
    (packed : List (List Nat)) (hb : binarize codec residuals = Except.ok packed) :
    codec.dim % 8 = 0 ∧ codec.dim % (codec.nbits * 8) = 0 ∧
    packed = packCodes codec.dim codec.nbits
      (residuals.map (fun r => r.map (bucketize codec.bucket_cutoffs))) := by
  unfold binarize at hb
  by_cases hchk : (codec.dim % 8 == 0 && codec.dim % (codec.nbits * 8) == 0) = true
  · rw [if_pos hchk] at hb
    simp only [Bool.and_eq_true, beq_iff_eq] at hchk
    injection hb with hb
    exact ⟨hchk.1, hchk.2, hb.symm⟩
  · rw [if_neg hchk] at hb
    exact absurd hb (by simp)

/-- C9: every packed matrix accepted and produced by `binarize` has rows of
width exactly `dim // 8 * nbits`, so it satisfies the row-width assertion
of `decompress_residuals`; feeding a `binarize` output back into
`decompress_residuals` never triggers the shape check. -/
theorem c9_binarize_output_width (codec : ResidualCodec)
    (residuals : List (List ℚ)) (packed : List (List Nat))
    (hd : 0 < codec.dim) (hn : 0 < codec.nbits)
    (hrows : ∀ r ∈ residuals, r.length = codec.dim)
    (hb : binarize codec residuals = Except.ok packed) :
    (∀ p ∈ packed, p.length = codec.dim / 8 * codec.nbits) ∧
    ∃ out, decompress_residuals codec packed = Except.ok out := by
  obtain ⟨hd8, hdn, hpk⟩ := binarize_ok_inv codec residuals packed hb
  have hy : ∀ r ∈ residuals.map (fun r => r.map (bucketize codec.bucket_cutoffs)),
      r.length = codec.dim := by
    intro r hr
    rw [List.mem_map] at hr
    obtain ⟨s, hs, rfl⟩ := hr
    rw [List.length_map]
    exact hrows s hs
  have hwidth : ∀ p ∈ packed, p.length = codec.dim / 8 * codec.nbits := by
    rw [hpk]
    exact packCodes_width codec.dim codec.nbits hd8 hd hn _ hy
  refine ⟨hwidth, ?_⟩
  unfold decompress_residuals
  rw [if_pos ?_]
  · exact ⟨_, rfl⟩
  · rw [List.all_eq_true]
    intro r hr
    simpa using hwidth r hr

/-- Witness for C9: `binarize` of an all-ones residual matrix under the
one-bit codec `codecZ` yields the single row `[255]` of width 1, which
`decompress_residuals` accepts. -/
theorem c9_witness :
    (∀ p ∈ ([[255]] : List (List Nat)), p.length = codecZ.dim / 8 * codecZ.nbits) ∧
    ∃ out, decompress_residuals codecZ [[255]] = Except.ok out :=
  c9_binarize_output_width codecZ [[1, 1, 1, 1, 1, 1, 1, 1]] [[255]]
    (by decide) (by decide) (by decide) (by rfl)

end PackingProofs

section ArgmaxProofs

theorem argmaxGo_fst_ge : ∀ (l : List ℚ) (best : ℚ) (bi ci : Nat),
    best ≤ (argmaxGo l best bi ci).1 ∧ ∀ x ∈ l, x ≤ (argmaxGo l best bi ci).1 := by
  intro l
  induction l with
  | nil => intro best bi ci; exact ⟨le_refl _, by simp⟩
  | cons x rest ih =>
    intro best bi ci
    unfold argmaxGo
    by_cases h : best < x
    · rw [if_pos h]
      obtain ⟨h1, h2⟩ := ih x ci (ci + 1)
      refine ⟨le_trans (le_of_lt h) h1, ?_⟩
      intro y hy
      rcases List.mem_cons.mp hy with rfl | hm
      · exact h1
      · exact h2 y hm
    · rw [if_neg h]
      obtain ⟨h1, h2⟩ := ih best bi (ci + 1)
      refine ⟨h1, ?_⟩
      intro y hy
      rcases List.mem_cons.mp hy with rfl | hm
      · exact le_trans (not_lt.mp h) h1
      · exact h2 y hm

theorem argmaxGo_snd : ∀ (l : List ℚ) (best : ℚ) (bi ci : Nat),
    ((argmaxGo l best bi ci).2 = bi ∧ (argmaxGo l best bi ci).1 = best) ∨
    (∃ k, k < l.length ∧ (argmaxGo l best bi ci).2 = ci + k ∧
      l.getD k 0 = (argmaxGo l best bi ci).1) := by
  intro l
  induction l with
  | nil => intro best bi ci; exact Or.inl ⟨rfl, rfl⟩
  | cons x rest ih =>
    intro best bi ci
    unfold argmaxGo
    by_cases h : best < x
    · rw [if_pos h]
      rcases ih x ci (ci + 1) with ⟨h2, h1⟩ | ⟨k, hk, h2, h1⟩
      · refine Or.inr ⟨0, by simp, by rw [h2, Nat.add_zero], ?_⟩
        rw [List.getD_cons_zero, h1]
      · refine Or.inr ⟨k + 1, by simp; omega, by rw [h2]; omega, ?_⟩
        rw [List.getD_cons_succ]
        exact h1
    · rw [if_neg h]
      rcases ih best bi (ci + 1) with ⟨h2, h1⟩ | ⟨k, hk, h2, h1⟩
      · exact Or.inl ⟨h2, h1⟩
      · refine Or.inr ⟨k + 1, by simp; omega, by rw [h2]; omega, ?_⟩
        rw [List.getD_cons_succ]
        exact h1

theorem argmaxIdx_spec (l : List ℚ) (hl : l ≠ []) :
    argmaxIdx l < l.length ∧ ∀ j, j < l.length → l.getD j 0 ≤ l.getD (argmaxIdx l) 0 := by
  cases l with
  | nil => exact absurd rfl hl
  | cons x rest =>
    show (argmaxGo rest x 0 1).2 < rest.length + 1 ∧ _
    obtain ⟨hge, hall⟩ := argmaxGo_fst_ge rest x 0 1
    have
      hval : (x :: rest).getD (argmaxGo rest x 0 1).2 0 = (argmaxGo rest x 0 1).1 ∧
        (argmaxGo rest x 0 1).2 < rest.length + 1 := by
      rcases argmaxGo_snd rest x 0 1 with ⟨h2, h1⟩ | ⟨k, hk, h2, h1⟩
      · rw [h2, h1]
        exact ⟨List.getD_cons_zero, by omega⟩
      · rw [h2, Nat.add_comm 1 k, List.getD_cons_succ]
        exact ⟨h1, by omega⟩
    refine ⟨hval.2, ?_⟩
    intro j hj
    show (x :: rest).getD j 0 ≤ (x :: rest).getD (argmaxIdx (x :: rest)) 0
    have hidx : (x :: rest).getD (argmaxIdx (x :: rest)) 0 = (argmaxGo rest x 0 1).1 :=
      hval.1
    rw [hidx]
    cases j with
    | zero => rw [List.getD_cons_zero]; exact hge
    | succ m =>
      rw [List.getD_cons_succ]
      have hm : m < rest.length := by simpa using hj
      rw [List.getD_eq_getElem rest 0 hm]
      exact hall _ (List.getElem_mem hm)

theorem compress_into_codes_eq_map (codec : ResidualCodec) (embs : List (List ℚ)) :
    compress_into_codes codec embs =
      embs.map (fun v => argmaxIdx (codec.centroids.map (fun c => dot c v))) := by
  unfold compress_into_codes
  rw [← map_flattenL, flattenL_chunkList]

/-- C6: for every input batch, `compress_into_codes` returns one code per
vector in input order, and the code of the `k`-th vector is a 0-based
in-range index of a centroid whose inner product with that vector is
maximal over the whole centroid set. -/
theorem c6_compress_into_codes_argmax (codec : ResidualCodec) (embs : List (List ℚ))
    (hc : codec.centroids ≠ []) :
    (compress_into_codes codec embs).length = embs.length ∧
    ∀ k, k < embs.length →
      (compress_into_codes codec embs).getD k 0 < codec.centroids.length ∧
      ∀ j, j < codec.centroids.length →
        dot (codec.centroids.getD j []) (embs.getD k []) ≤
          dot (codec.centroids.getD ((compress_into_codes codec embs).getD k 0) [])
            (embs.getD k []) := by
  rw [compress_into_codes_eq_map]
  refine ⟨List.length_map embs _, ?_⟩
  intro k hk
  have hgd : (embs.map (fun v => argmaxIdx (codec.centroids.map (fun c => dot c v)))).getD
      k 0 = argmaxIdx (codec.centroids.map (fun c => dot c (embs.getD k []))) := by
    rw [List.getD_eq_getElem _ _ (by simpa using hk), List.getElem_map,
      List.getD_eq_getElem _ _ hk]
  rw [hgd]
  have hcl : codec.centroids.map (fun c => dot c (embs.getD k [])) ≠ [] := by
    simpa using hc
  obtain ⟨hidx, hmax⟩ := argmaxIdx_spec _ hcl
  have hidx' : argmaxIdx (codec.centroids.map (fun c => dot c (embs.getD k []))) <
      codec.centroids.length := by simpa using hidx
  refine ⟨hidx', ?_⟩
  intro j hj
  have h1 := hmax j (by simpa using hj)
  have e1 : ∀ (i : Nat), i < codec.centroids.length →
      (codec.centroids.map (fun c => dot c (embs.getD k []))).getD i 0 =
        dot (codec.centroids.getD i []) (embs.getD k []) := by
    intro i hi
    rw [List.getD_eq_getElem _ _ (by simpa using hi), List.getElem_map,
      List.getD_eq_getElem _ _ hi]
  rw [e1 j hj, e1 _ hidx'] at h1
  exact h1

/-- Witness for C6 on the two-centroid codec of the concrete scenario and
the vector `[9/10, 3/10, 0, ..., 0]`: one code is produced, it is in
range, and it dominates both centroids' inner products. -/
theorem c6_witness :
    (compress_into_codes codecC5 [[9/10, 3/10, 0, 0, 0, 0, 0, 0]]).length = 1 ∧
    (compress_into_codes codecC5 [[9/10, 3/10, 0, 0, 0, 0, 0, 0]]).getD 0 0 <
      codecC5.centroids.length ∧
    dot (codecC5.centroids.getD 0 []) ([[9/10, 3/10, 0, 0, 0, 0, 0, 0]].getD 0 []) ≤
      dot (codecC5.centroids.getD
            ((compress_into_codes codecC5 [[9/10, 3/10, 0, 0, 0, 0, 0, 0]]).getD 0 0) [])
          ([[9/10, 3/10, 0, 0, 0, 0, 0, 0]].getD 0 []) ∧
    dot (codecC5.centroids.getD 1 []) ([[9/10, 3/10, 0, 0, 0, 0, 0, 0]].getD 0 []) ≤
      dot (codecC5.centroids.getD
            ((compress_into_codes codecC5 [[9/10, 3/10, 0, 0, 0, 0, 0, 0]]).getD 0 0) [])
          ([[9/10, 3/10, 0, 0, 0, 0, 0, 0]].getD 0 []) := by
  have h := c6_compress_into_codes_argmax codecC5 [[9/10, 3/10, 0, 0, 0, 0, 0, 0]]
    (by decide)
  have h1 := h.1
  have h2 := h.2 0 (by decide)
  exact ⟨by simpa using h1, h2.1, h2.2 0 (by decide), h2.2 1 (by decide)⟩

end ArgmaxProofs

section CompressProofs

theorem lookup_centroids_eq_map (codec : ResidualCodec) (codes : List Nat) :
    lookup_centroids codec codes = codes.map (fun c => codec.centroids.getD c []) := by
  unfold lookup_centroids
  rw [← map_flattenL, flattenL_chunkList]

theorem subRows_map (l : List (List ℚ)) (g : List ℚ → List ℚ) :
    subRows l (l.map g) =
      l.map (fun v => List.zipWith (fun x y => x - y) v (g v)) := by
  induction l with
  | nil => rfl
  | cons v rest ih =>
    show List.zipWith _ (v :: rest) (g v :: rest.map g) = _
    rw [List.zipWith_cons_cons, List.map_cons]
    congr 1

theorem compressLoop_ok (codec : ResidualCodec)
    (hd8 : codec.dim % 8 = 0) (hdn : codec.dim % (codec.nbits * 8) = 0)
    (hd : 0 < codec.dim) (hn : 0 < codec.nbits)
    (hcne : codec.centroids ≠ [])
    (hcw : ∀ c ∈ codec.centroids, c.length = codec.dim) :
    ∀ chunks : List (List (List ℚ)),
      (∀ batch ∈ chunks, ∀ v ∈ batch, v.length = codec.dim) →
      compressLoop codec chunks = Except.ok
        (flattenL (chunks.map (fun batch => batch.map (fun v =>
           argmaxIdx (codec.centroids.map (fun c => dot c v))))),
         flattenL (chunks.map (fun batch => batch.map (fun v =>
           packbits (flattenL (((List.zipWith (fun x y => x - y) v
             (codec.centroids.getD
               (argmaxIdx (codec.centroids.map (fun c => dot c v))) [])).map
             (bucketize codec.bucket_cutoffs)).map (toBitsLSB codec.nbits))))))) := by
  intro chunks
  induction chunks with
  | nil => intro _; rfl
  | cons batch rest ih =>
    intro hall
    have hflt : ∀ v : List ℚ,
        argmaxIdx (codec.centroids.map (fun c => dot c v)) < codec.centroids.length :=
      fun v => by
        have h := (argmaxIdx_spec (codec.centroids.map (fun c => dot c v))
          (by simpa using hcne)).1
        simpa using h
    have hlookup : lookup_centroids codec (batch.map (fun v =>
        argmaxIdx (codec.centroids.map (fun c => dot c v)))) =
        batch.map (fun v => codec.centroids.getD
          (argmaxIdx (codec.centroids.map (fun c => dot c v))) []) := by
      rw [lookup_centroids_eq_map, List.map_map]
      rfl
    have hreslen : ∀ r ∈ batch.map (fun v => List.zipWith (fun x y => x - y) v
        (codec.centroids.getD (argmaxIdx (codec.centroids.map (fun c => dot c v))) [])),
        r.length = codec.dim := by
      intro r hr
      rw [List.mem_map] at hr
      obtain ⟨v, hv, rfl⟩ := hr
      rw [List.length_zipWith, hall batch (by simp) v hv]
      have hg : (codec.centroids.getD
          (argmaxIdx (codec.centroids.map (fun c => dot c v))) []).length =
          codec.dim := by
        rw [List.getD_eq_getElem _ _ (hflt v)]
        exact hcw _ (List.getElem_mem (hflt v))
      rw [hg, min_self]
    have hbuck : ∀ r ∈ (batch.map (fun v => List.zipWith (fun x y => x - y) v
        (codec.centroids.getD (argmaxIdx (codec.centroids.map (fun c => dot c v)))
          []))).map (fun r => r.map (bucketize codec.bucket_cutoffs)),
        r.length = codec.dim := by
      intro r hr
      rw [List.mem_map] at hr
      obtain ⟨s, hs, rfl⟩ := hr
      rw [List.length_map]
      exact hreslen s hs
    show Except.bind (binarize codec (subRows batch (lookup_centroids codec
      (compress_into_codes codec batch)))) _ = _
    rw [compress_into_codes_eq_map, hlookup, subRows_map,
      binarize_ok codec _ hd8 hdn,
      packCodes_eq_map codec.dim codec.nbits hd8 hd hn _ hbuck]
    show Except.bind (compressLoop codec rest) _ = _
    rw [ih (fun b hb => hall b (by simp [hb]))]
    rw [List.map_map, List.map_map]
    rfl

theorem compress_ok (codec : ResidualCodec)
    (hd8 : codec.dim % 8 = 0) (hdn : codec.dim % (codec.nbits * 8) = 0)
    (hd : 0 < codec.dim) (hn : 0 < codec.nbits)
    (hcne : codec.centroids ≠ [])
    (hcw : ∀ c ∈ codec.centroids, c.length = codec.dim)
    (bsize : Nat) (embs : List (List ℚ))
    (he : ∀ v ∈ embs, v.length = codec.dim) :
    compress codec bsize embs = Except.ok
      (embs.map (fun v => argmaxIdx (codec.centroids.map (fun c => dot c v))),
       embs.map (fun v =>
         packbits (flattenL (((List.zipWith (fun x y => x - y) v
           (codec.centroids.getD
             (argmaxIdx (codec.centroids.map (fun c => dot c v))) [])).map
           (bucketize codec.bucket_cutoffs)).map (toBitsLSB codec.nbits))))) := by
  unfold compress
  rw [compressLoop_ok codec hd8 hdn hd hn hcne hcw (chunkList bsize embs) ?_]
  · rw [← map_flattenL, ← map_flattenL, flattenL_chunkList]
  · intro batch hb v hv
    apply he
    have hm : v ∈ flattenL (chunkList bsize embs) := mem_flattenL.mpr ⟨batch, hb, hv⟩
    rwa [flattenL_chunkList] at hm

theorem compress_error (codec : ResidualCodec)
    (hneg : ¬(codec.dim % 8 = 0 ∧ codec.dim % (codec.nbits * 8) = 0))
    (bsize : Nat) (e : List ℚ) (es : List (List ℚ)) :
    compress codec bsize (e :: es) = Except.error PyError.assertionError := by
  unfold compress
  rw [chunkList_cons]
  show Except.bind (binarize codec _) _ = _
  rw [show binarize codec (subRows (e :: (es.take (bsize - 1)))
      (lookup_centroids codec (compress_into_codes codec (e :: es.take (bsize - 1))))) =
      Except.error PyError.assertionError by
    unfold binarize
    rw [if_neg (by simpa using hneg)]]
  rfl

/-- C8: `compress` is chunk-size invariant — for every input batch and any
two chunk sizes, the codes and packed residuals produced are identical, so
chunked processing agrees with processing the whole batch at once. -/
theorem c8_compress_chunk_invariant (codec : ResidualCodec) (embs : List (List ℚ))
    (b1 b2 : Nat)
    (hcne : codec.centroids ≠ [])
    (hcw : ∀ c ∈ codec.centroids, c.length = codec.dim)
    (he : ∀ v ∈ embs, v.length = codec.dim)
    (hd : 0 < codec.dim) (hn : 0 < codec.nbits) :
    compress codec b1 embs = compress codec b2 embs := by
  by_cases hchk : codec.dim % 8 = 0 ∧ codec.dim % (codec.nbits * 8) = 0
  · rw [compress_ok codec hchk.1 hchk.2 hd hn hcne hcw b1 embs he,
      compress_ok codec hchk.1 hchk.2 hd hn hcne hcw b2 embs he]
  · cases embs with
    | nil => rfl
    | cons e es =>
      rw [compress_error codec hchk b1 e es, compress_error codec hchk b2 e es]

/-- Witness for C8: compressing two vectors under `codecZ` with chunk
size 1 and chunk size 2 (the whole batch at once) gives identical output. -/
theorem c8_witness :
    compress codecZ 1 [[1, 1, 1, 1, 1, 1, 1, 1], [0, 0, 0, 0, 0, 0, 0, 0]] =
    compress codecZ 2 [[1, 1, 1, 1, 1, 1, 1, 1], [0, 0, 0, 0, 0, 0, 0, 0]] :=
  c8_compress_chunk_invariant codecZ
    [[1, 1, 1, 1, 1, 1, 1, 1], [0, 0, 0, 0, 0, 0, 0, 0]] 1 2
    (by decide) (by decide) (by decide) (by decide) (by decide)

end CompressProofs

section ScenarioProofs

/-- Counterexample to C5 as stated: on the scenario's configuration
(`D = 8`, `n = 2`) a full `compress` call never packs anything — the
assertion `dim % (nbits * 8) == 0` inside `binarize` fails (`8 % 16 = 8`),
so compressing `v` raises `AssertionError` instead of producing the
packed pair. -/
theorem c5_counterexample :
    compress codecC5 (2 ^ 18) [[9/10, 3/10, 0, 0, 0, 0, 0, 0]] =
      Except.error PyError.assertionError := rfl

/-- C5 amended: on the specification's concrete scenario (`D = 8`, `n = 2`,
centroids `c0`, `c1`, cutoffs `[-1/2, 0, 1/2]`) with
`v = [9/10, 3/10, 0, ..., 0]`, the centroid assignment is `c0` (index 0),
the per-dimension quantization codes are `-1/10 -> 1`, `3/10 -> 2` and
`0 -> 1` six times, and the packing of those eight 2-bit codes yields
exactly the 2 bytes `[154, 170]`; the full `compress` call, however, stops
at the `dim % (nbits * 8)` assertion for this configuration, so these
values are produced by the pipeline stages, not by `compress` itself. -/
theorem c5_concrete_scenario :
    compress_into_codes codecC5 [[9/10, 3/10, 0, 0, 0, 0, 0, 0]] = [0] ∧
    (subRows [[9/10, 3/10, 0, 0, 0, 0, 0, 0]] (lookup_centroids codecC5 [0])).map
      (fun r => r.map (bucketize codecC5.bucket_cutoffs)) =
        [[1, 2, 1, 1, 1, 1, 1, 1]] ∧
    packCodes 8 2 [[1, 2, 1, 1, 1, 1, 1, 1]] = [[154, 170]] := by
  refine ⟨?_, ?_, by decide⟩
  · norm_num [compress_into_codes, chunkList, chunkGo, flattenL, argmaxIdx, argmaxGo,
      dot, codecC5, codecOf]
  · norm_num [subRows, lookup_centroids, chunkList, chunkGo, flattenL, bucketize,
      List.findIdx_cons, codecC5, codecOf]

end ScenarioProofs

section NormalizeProofs

/-- Counterexample to C3 as stated: a valid compressed input (code 0 in
range, packed row `[0]` of the correct width 1) whose raw reconstruction
under `codecZ` is the zero row — `decompress` returns that row normalized,
and its squared Euclidean norm is 0, not 1. -/
theorem c3_counterexample :
    decompress codecZ [0] [[0]] =
      Except.ok [l2normalize [0, 0, 0, 0, 0, 0, 0, 0]] ∧
    normSqR (l2normalize [0, 0, 0, 0, 0, 0, 0, 0]) = 0 ∧
    normSqR (l2normalize [0, 0, 0, 0, 0, 0, 0, 0]) ≠ 1 := by
  refine ⟨?_, ?_, by norm_num [normSqR, l2normalize, normSqQ]⟩
  · have h : decompressRaw codecZ [0] [[0]] = Except.ok [[0, 0, 0, 0, 0, 0, 0, 0]] := by
      norm_num [decompressRaw, decompressLoop, lookup_centroids, decompress_residuals,
        unpackCodes, chunkList, chunkGo, flattenL, unpackbits, unpackByte, regroup,
        shiftSum, addRows, codecZ, codecOf, Except.bind, bind]
    rw [decompress, h]
    rfl
  · norm_num [normSqR, l2normalize, normSqQ]

/-- C3 amended: every row of the matrix returned by `decompress` whose raw
reconstruction (centroid plus decoded residual) is nonzero is
L2-normalized to unit Euclidean norm; a zero raw reconstruction is
returned as the zero row. -/
theorem c3_decompress_unit_norm (codec : ResidualCodec) (codes : List Nat)
    (residuals : List (List Nat)) (rows : List (List ℚ)) (r : List ℚ)
    (h : decompressRaw codec codes residuals = Except.ok rows)
    (hr : r ∈ rows) (hnz : normSqQ r ≠ 0) :
    decompress codec codes residuals = Except.ok (rows.map l2normalize) ∧
    normSqR (l2normalize r) = 1 := by
  refine ⟨by rw [decompress, h]; rfl, ?_⟩
  have hS0 : (0 : ℚ) ≤ normSqQ r := by
    unfold normSqQ
    apply List.sum_nonneg
    intro x hx
    rw [List.mem_map] at hx
    obtain ⟨y, -, rfl⟩ := hx
    exact mul_self_nonneg y
  have hSpos : (0 : ℝ) ≤ ((normSqQ r : ℚ) : ℝ) := by exact_mod_cast hS0
  have hSne : ((normSqQ r : ℚ) : ℝ) ≠ 0 := by exact_mod_cast hnz
  unfold normSqR l2normalize
  rw [List.map_map]
  have hfn : ((fun x : ℝ => x * x) ∘ fun x : ℚ =>
      (x : ℝ) / Real.sqrt ((normSqQ r : ℚ) : ℝ)) =
      fun x : ℚ => ((x : ℝ) * (x : ℝ)) *
        (Real.sqrt ((normSqQ r : ℚ) : ℝ) * Real.sqrt ((normSqQ r : ℚ) : ℝ))⁻¹ := by
    funext x
    show ((x : ℝ) / Real.sqrt _) * ((x : ℝ) / Real.sqrt _) = _
    rw [div_mul_div_comm, div_eq_mul_inv]
  rw [hfn, List.sum_map_mul_right, Real.mul_self_sqrt hSpos]
  have hsum : (r.map (fun x : ℚ => ((x : ℝ) * (x : ℝ)))).sum = ((normSqQ r : ℚ) : ℝ) := by
    unfold normSqQ
    push_cast [List.map_map]
    refine congrArg List.sum (List.map_congr_left ?_)
    intro x _
    show (x : ℝ) * (x : ℝ) = ((x * x : ℚ) : ℝ)
    push_cast
    rfl
  rw [hsum, mul_inv_cancel₀ hSne]

/-- Witness for C3 amended: for `codecZ` with code 0 and packed row
`[255]`, the raw reconstruction is the all-twos row, which is nonzero, and
the decompressed output row has unit squared norm. -/
theorem c3_witness :
    decompress codecZ [0] [[255]] =
      Except.ok ([[(2 : ℚ), 2, 2, 2, 2, 2, 2, 2]].map l2normalize) ∧
    normSqR (l2normalize [(2 : ℚ), 2, 2, 2, 2, 2, 2, 2]) = 1 := by
  have h : decompressRaw codecZ [0] [[255]] =
      Except.ok [[(2 : ℚ), 2, 2, 2, 2, 2, 2, 2]] := by
    norm_num [decompressRaw, decompressLoop, lookup_centroids, decompress_residuals,
      unpackCodes, chunkList, chunkGo, flattenL, unpackbits, unpackByte, regroup,
      shiftSum, addRows, codecZ, codecOf, Except.bind, bind,
      Nat.shiftRight_eq_div_pow]
  exact c3_decompress_unit_norm codecZ [0] [[255]] [[(2 : ℚ), 2, 2, 2, 2, 2, 2, 2]]
    [(2 : ℚ), 2, 2, 2, 2, 2, 2, 2] h (by simp) (by norm_num [normSqQ])

end NormalizeProofs

end Colbert
